import Mathlib

/-!
Verification of `tools/latency.py`, a logic-capture latency analyzer:
transition extraction with debounce, SBUS frame grouping and byte decoding,
trigger-to-frame correlation, summary statistics and CSV export.

Modelling conventions:
* times are rational numbers (Python floats carry exact decimal literals here);
* a capture row is `(time_seconds, cells)` where `cells` are the sampled
  column values, modelled as integers in canonical form (the Python code
  compares the raw CSV strings and converts with `int`; for canonically
  written integer cells the two agree);
* file I/O is modelled by passing the file's lines in and returning the
  lines written out (without trailing newlines; Python's `readlines` keeps
  the newline, which its `.strip()` removes again before any use);
* a Python run-time error (ZeroDivisionError) is modelled as `none`.
-/

/-- One column's transition list: `(time_ms, level)` pairs. -/
abbrev Transition := ℚ × ℤ

/-- Candidate-emission loop of `build_transitions_array`: walk the data rows,
emitting `(time*1000, value)` whenever the column's value differs from the
previously emitted one (`last is None or value != last`); `last` is updated
on emission. -/
def buildCandidatesAux (column : ℕ) (last : Option ℤ) :
    List (ℚ × List ℤ) → List Transition
  | [] => []
  | (t, cells) :: rest =>
    let value := cells.getD column 0
    match last with
    | none => (t * 1000, value) :: buildCandidatesAux column (some value) rest
    | some lv =>
      if value ≠ lv then (t * 1000, value) :: buildCandidatesAux column (some value) rest
      else buildCandidatesAux column (some lv) rest

/-- Debounce pass of `build_transitions_array`: drop any adjacent pair of
candidates closer together than 0.002 ms and resume after the pair. -/
def debounce : List Transition → List Transition
  | [] => []
  | [x] => [x]
  | x :: y :: rest =>
    if y.1 - x.1 < 0.002 then debounce rest
    else x :: debounce (y :: rest)

/-- `build_transitions_array(f, column)`: skip the header row, emit
candidates, debounce. -/
def build_transitions_array (rows : List (ℚ × List ℤ)) (column : ℕ) :
    List Transition :=
  debounce (buildCandidatesAux column none (rows.drop 1))

/-- A reconstructed serial frame: one contiguous burst of transitions. -/
structure SBusFrame where
  transitions : List Transition
deriving DecidableEq

/-- `SBusFrame.start`: time of the first transition (`transitions[0][0]`). -/
def SBusFrame.start (f : SBusFrame) : ℚ := (f.transitions.headD (0, 0)).1

/-- `SBusFrame.end`: time of the last transition (`transitions[-1][0]`);
`end` is a Lean keyword, hence the primed name. -/
def SBusFrame.end' (f : SBusFrame) : ℚ := (f.transitions.getLastD (0, 0)).1

/-- `SBusFrame.is_after(t)`: `self.start() >= t`. -/
def SBusFrame.is_after (f : SBusFrame) (t : ℚ) : Bool := decide (f.start ≥ t)

/-- Scanning loop of `SBusFrame.value`: walk the transitions keeping the
last level seen at or before `time`, starting from the accumulator. -/
def valueAux (time : ℚ) (acc : ℤ) : List Transition → ℤ
  | [] => acc
  | (t, v) :: rest => if t > time then acc else valueAux time v rest

/-- `SBusFrame.value(time)`: logic level in effect at `time` (0 before the
first transition). -/
def SBusFrame.value (f : SBusFrame) (time : ℚ) : ℤ :=
  valueAux time 0 f.transitions

/-- `SBusFrame.byte(index)`: sample 8 bits starting at
`start + 0.12*index + 0.015` ms, 0.010 ms apart, LSB first, each bit
contributing `(1 - value(t)) << bit`. -/
def SBusFrame.byte (f : SBusFrame) (index : ℕ) : ℤ :=
  ((List.range 8).foldl
    (fun acc bit => (acc.1 + (1 - f.value acc.2) * 2 ^ bit, acc.2 + 0.010))
    ((0 : ℤ), f.start + 0.12 * (index : ℚ) + 0.015)).1

/-- `SBusFrame.is_lost()`: `self.byte(23) & 0x04` (an integer, used for its
Python truthiness: the frame is "lost" when the result is nonzero). -/
def SBusFrame.is_lost (f : SBusFrame) : ℤ := Int.land (f.byte 23) 4

/-- Loop state of `SBusFrame.get_frames`: frames flushed so far, the frame
currently open (Python `current_frame`, `None` before the first gap), and
the previous transition time (Python `last`, initially 0). -/
structure GetFramesState where
  result : List SBusFrame
  current : Option SBusFrame
  last : ℚ
deriving DecidableEq

/-- One iteration of the `get_frames` loop body. -/
def get_frames_step (st : GetFramesState) (x : Transition) : GetFramesState :=
  let st :=
    if x.1 - st.last > 2 then
      { result := st.result ++ (match st.current with | some f => [f] | none => []),
        current := some ⟨[]⟩,
        last := st.last }
    else st
  let st :=
    match st.current with
    | some f => { st with current := some ⟨f.transitions ++ [x]⟩ }
    | none => st
  { st with last := x.1 }

/-- The final loop state of `SBusFrame.get_frames`. -/
def framesState (transitions : List Transition) : GetFramesState :=
  transitions.foldl get_frames_step ⟨[], none, 0⟩

/-- `SBusFrame.get_frames(transitions)`: the frames appended to `result`
(the trailing open frame is never appended). -/
def get_frames (transitions : List Transition) : List SBusFrame :=
  (framesState transitions).result

/-- The trailing open frame of the `get_frames` loop, if any (the loop
never appends it to `result`). -/
def tailFrames (transitions : List Transition) : List SBusFrame :=
  match (framesState transitions).current with
  | some f => [f]
  | none => []

/-- Flushed frames followed by the open frame of a loop state. -/
def allFrames (st : GetFramesState) : List SBusFrame :=
  st.result ++ (match st.current with | some f => [f] | none => [])

/-- Concatenated transitions held by a loop state. -/
def framesJoin (st : GetFramesState) : List Transition :=
  (st.result.map SBusFrame.transitions).flatten ++
    (match st.current with | some f => f.transitions | none => [])

/-- The transitions `get_frames` silently discards before the first
inter-frame gap: with `last` as reference, skip entries until one with
`t - last > 2`. -/
def dropUntilGap (last : ℚ) : List Transition → List Transition
  | [] => []
  | (t, v) :: rest => if t - last > 2 then (t, v) :: rest else dropUntilGap t rest

/-- Invariant of the `get_frames` loop: before the first inter-frame gap
nothing has been flushed; every frame (flushed or open) is nonempty; inside
a frame consecutive transitions are at most 2 ms apart; consecutive frames
are separated by more than 2 ms; the open frame ends at `last`. -/
def FramesInv (st : GetFramesState) : Prop :=
  (st.current = none → st.result = []) ∧
  (∀ f ∈ allFrames st, f.transitions ≠ []) ∧
  (∀ f ∈ allFrames st, List.Chain' (fun a b : Transition => b.1 - a.1 ≤ 2) f.transitions) ∧
  List.Chain' (fun f g : SBusFrame => g.start - f.end' > 2) (allFrames st) ∧
  (∀ f, st.current = some f → f.end' = st.last)

/-- The analyzer's state: trigger transitions, SBUS frames and the two
expected byte-1 payload values. -/
structure LatencyStatistics where
  trigger_transitions : List Transition
  sbus_frames : List SBusFrame
  highval : ℤ
  lowval : ℤ
deriving DecidableEq

/-- Inner loop of `LatencyStatistics.iter`: scan the frames in order,
stopping (`break`) at the first one with `is_after(t0)` and
`byte(1) == byte`. -/
def findFrame (frames : List SBusFrame) (t0 : ℚ) (byte : ℤ) : Option SBusFrame :=
  match frames with
  | [] => none
  | f :: rest => if f.is_after t0 && f.byte 1 == byte then some f else findFrame rest t0 byte

/-- Outer loop of `LatencyStatistics.iter`: for each trigger transition,
yield `(t0, val, frame, frame.end() - t0)` if a matching frame exists. -/
def iterAux (frames : List SBusFrame) (highval lowval : ℤ) :
    List Transition → List (ℚ × ℤ × SBusFrame × ℚ)
  | [] => []
  | (t0, val) :: rest =>
    let byte := if val = 1 then highval else lowval
    match findFrame frames t0 byte with
    | some frame => (t0, val, frame, frame.end' - t0) :: iterAux frames highval lowval rest
    | none => iterAux frames highval lowval rest

/-- `LatencyStatistics.iter()`: drop the first trigger transition and
correlate the rest. -/
def LatencyStatistics.iter (s : LatencyStatistics) : List (ℚ × ℤ × SBusFrame × ℚ) :=
  iterAux s.sbus_frames s.highval s.lowval (s.trigger_transitions.drop 1)

/-- `mini` update of `LatencyStatistics.print`:
`if mini is None or delay < mini[0]: mini = (delay, t0, frame)`. -/
def miniStep (mini : Option (ℚ × ℚ × SBusFrame)) (x : ℚ × ℤ × SBusFrame × ℚ) :
    Option (ℚ × ℚ × SBusFrame) :=
  match mini with
  | none => some (x.2.2.2, x.1, x.2.2.1)
  | some m => if x.2.2.2 < m.1 then some (x.2.2.2, x.1, x.2.2.1) else some m

/-- `maxi` update of `LatencyStatistics.print`:
`if maxi is None or delay > maxi[0]: maxi = (delay, t0, frame)`. -/
def maxiStep (maxi : Option (ℚ × ℚ × SBusFrame)) (x : ℚ × ℤ × SBusFrame × ℚ) :
    Option (ℚ × ℚ × SBusFrame) :=
  match maxi with
  | none => some (x.2.2.2, x.1, x.2.2.1)
  | some m => if x.2.2.2 > m.1 then some (x.2.2.2, x.1, x.2.2.1) else some m

/-- One iteration of the accumulation loop of `LatencyStatistics.print`:
update `(mini, maxi, count, total)` with one correlated tuple. -/
def statsStep (st : Option (ℚ × ℚ × SBusFrame) × Option (ℚ × ℚ × SBusFrame) × ℕ × ℚ)
    (x : ℚ × ℤ × SBusFrame × ℚ) :
    Option (ℚ × ℚ × SBusFrame) × Option (ℚ × ℚ × SBusFrame) × ℕ × ℚ :=
  (miniStep st.1 x, maxiStep st.2.1 x, st.2.2.1 + 1, st.2.2.2 + x.2.2.2)

/-- The summary block printed by `LatencyStatistics.print`. -/
structure Report where
  count : ℕ
  average : ℚ
  mini : ℚ × ℚ × SBusFrame
  maxi : ℚ × ℚ × SBusFrame
deriving DecidableEq

/-- The statistics computed by `LatencyStatistics.print` over a list of
correlated tuples. With zero tuples Python raises `ZeroDivisionError` at
`total / count`; that failure is modelled as `none` (the `mini`/`maxi`
accumulators are `None` exactly when `count == 0`, so the fallback match
arm is unreachable). -/
def summarize (events : List (ℚ × ℤ × SBusFrame × ℚ)) : Option Report :=
  match events.foldl statsStep (none, none, 0, 0) with
  | (mini, maxi, count, total) =>
    if count = 0 then none
    else
      match mini, maxi with
      | some m, some M => some ⟨count, total / count, m, M⟩
      | _, _ => none

/-- `LatencyStatistics.print()`, as the report it computes (console
rendering is outside the model). -/
def LatencyStatistics.printReport (s : LatencyStatistics) : Option Report :=
  summarize s.iter

/-- `LatencyStatistics.append_to_line(f, s, index, lines, columns)`: the
single line written (the trailing `"\n"` is left implicit in the
line-list model). -/
def append_to_line (s : String) (index : ℕ) (lines : List String) (columns : ℕ) : String :=
  if columns = 0 then s
  else if index < lines.length then (lines.getD index "").trim ++ ";" ++ s
  else String.join (List.replicate columns ";") ++ s

/-- The value-writing loop of `LatencyStatistics.export`: one output line
per value, with the running `index` starting at 1. -/
def exportRows (values : List String) (index : ℕ) (lines : List String) (columns : ℕ) :
    List String :=
  match values with
  | [] => []
  | v :: rest => append_to_line v index lines columns :: exportRows rest (index + 1) lines columns

/-- Body of `LatencyStatistics.export`: `existing = some lines` models an
existing file at `path` with those lines, `none` a missing file; the
result is the list of lines written. Python reads `columns` from
`lines[0]`, so an existing-but-empty file would raise `IndexError`
(theorems about the `some` case therefore assume a nonempty file). -/
def exportLines (existing : Option (List String)) (append : Bool) (title : String)
    (values : List String) : List String :=
  let lines : List String := if append then existing.getD [] else []
  let columns : ℕ :=
    if append ∧ existing.isSome then ((lines.headD "").splitOn ";").length else 0
  append_to_line title 0 lines columns :: exportRows values 1 lines columns

/-- `LatencyStatistics.export(path, title, append)`: the values written
are the rendered delays of the correlated tuples. -/
def LatencyStatistics.export' (s : LatencyStatistics) (existing : Option (List String))
    (title : String) (append : Bool) : List String :=
  exportLines existing append title (s.iter.map (fun x => toString x.2.2.2))

/-- A synthetic frame whose transitions decode to byte 23 = `0x04`
(line level 0 exactly while bit 2 of byte 23 is sampled). -/
def frameLost : SBusFrame := ⟨[(0, 1), (2.79, 0), (2.80, 1)]⟩

/-- A synthetic frame whose line level is constantly 1, so every decoded
byte is `0x00`. -/
def frameOk : SBusFrame := ⟨[(0, 1)]⟩

/-- A placeholder matched frame for the statistics scenario. -/
def dummyFrame : SBusFrame := ⟨[(0, 0)]⟩

/-- The spec's statistics scenario: delays `[3, 5, 4]` ms at trigger times
`[1000, 2000, 3000]` ms. -/
def statsEvents : List (ℚ × ℤ × SBusFrame × ℚ) :=
  [(1000, 1, dummyFrame, 3), (2000, 0, dummyFrame, 5), (3000, 1, dummyFrame, 4)]

/-! ## Helper lemmas -/

theorem splitOnAux_length_lt (s sep : String) (b i j : String.Pos) (r : List String) :
    r.length < (String.splitOnAux s sep b i j r).length := by
  induction b, i, j, r using String.splitOnAux.induct s sep with
  | case1 b i j r h =>
      rw [String.splitOnAux]; simp [h]
  | case2 b i j r h1 h2 i1 j1 h3 ih =>
      rw [String.splitOnAux]
      simp only [h1, h2, h3, if_true, if_false, Bool.false_eq_true, ite_false, ite_true]
      exact Nat.lt_of_succ_lt ih
  | case3 b i j r h1 h2 i1 j1 h3 ih =>
      rw [String.splitOnAux]
      simp only [h1, h2, h3, if_true, if_false, Bool.false_eq_true, ite_false, ite_true]
      exact ih
  | case4 b i j r h1 h2 ih =>
      rw [String.splitOnAux]
      simp only [h1, h2, if_true, if_false, Bool.false_eq_true, ite_false, ite_true]
      exact ih

theorem splitOn_length_pos (s : String) : 0 < (s.splitOn ";").length := by
  rw [String.splitOn]
  have h := splitOnAux_length_lt s ";" 0 0 0 []
  simpa using h

theorem findFrame_eq_find (frames : List SBusFrame) (t0 : ℚ) (b : ℤ) :
    findFrame frames t0 b = frames.find? (fun f => f.is_after t0 && f.byte 1 == b) := by
  induction frames with
  | nil => rfl
  | cons f rest ih =>
      rw [findFrame, List.find?]
      cases h : (f.is_after t0 && f.byte 1 == b) with
      | true => simp [h]
      | false => simp [h, ih]

theorem iterAux_eq_filterMap (frames : List SBusFrame) (hv lv : ℤ) (l : List Transition) :
    iterAux frames hv lv l = l.filterMap (fun p =>
      (findFrame frames p.1 (if p.2 = 1 then hv else lv)).map
        (fun frame => (p.1, p.2, frame, frame.end' - p.1))) := by
  induction l with
  | nil => rfl
  | cons p rest ih =>
      obtain ⟨t0, val⟩ := p
      rw [iterAux]
      cases h : findFrame frames t0 (if val = 1 then hv else lv) with
      | some frame => simp [h, List.filterMap_cons, ih]
      | none => simp [h, List.filterMap_cons, ih]

/-! ## Claim theorems -/

/-- Claim C2: the Correlator discards the first trigger transition, and for
each remaining trigger transition yields exactly one tuple built from the
first frame (in list order) that starts at or after the trigger and whose
decoded byte 1 equals the expected value (`highval` for level 1, `lowval`
otherwise), with delay measured to the end of that frame; unmatched
triggers contribute nothing and raise no error. -/
theorem iter_yields_first_matching_frame (s : LatencyStatistics) :
    s.iter = (s.trigger_transitions.drop 1).filterMap (fun p =>
      (s.sbus_frames.find? (fun f =>
          f.is_after p.1 && f.byte 1 == (if p.2 = 1 then s.highval else s.lowval))).map
        (fun frame => (p.1, p.2, frame, frame.end' - p.1))) := by
  rw [LatencyStatistics.iter, iterAux_eq_filterMap]
  simp only [findFrame_eq_find]

/-- Claim C7: in the debounce pass a candidate closer than 0.002 ms to its
immediate successor is dropped together with that successor and scanning
resumes after the pair; a trailing candidate with no successor is kept; the
first row of the input is ignored regardless of content. -/
theorem debounce_drops_close_pairs_keeps_trailing_ignores_header :
    (∀ (x y : Transition) (rest : List Transition), y.1 - x.1 < 0.002 →
        debounce (x :: y :: rest) = debounce rest) ∧
    (∀ x : Transition, debounce [x] = [x]) ∧
    (∀ (r r' : ℚ × List ℤ) (rows : List (ℚ × List ℤ)) (column : ℕ),
        build_transitions_array (r :: rows) column =
          build_transitions_array (r' :: rows) column) := by
  refine ⟨?_, ?_, ?_⟩
  · intro x y rest h
    simp [debounce, h]
  · intro x
    simp [debounce]
  · intro r r' rows column
    rfl

/-- Witness for C7 at concrete inputs. -/
theorem debounce_drops_close_pairs_keeps_trailing_ignores_header_witness :
    debounce [((0 : ℚ), (0 : ℤ)), (1/1000, 1)] = debounce [] ∧
    debounce [((5 : ℚ), (1 : ℤ))] = [(5, 1)] :=
  ⟨debounce_drops_close_pairs_keeps_trailing_ignores_header.1 _ _ _ (by norm_num),
   debounce_drops_close_pairs_keeps_trailing_ignores_header.2.1 _⟩

theorem valueAux_eq_filter (time : ℚ) (l : List Transition) :
    ∀ acc : ℤ, List.Pairwise (fun a b : Transition => a.1 ≤ b.1) l →
      valueAux time acc l =
        (((l.filter (fun p => decide (p.1 ≤ time))).getLast?).map Prod.snd).getD acc := by
  induction l with
  | nil => intro acc _; rfl
  | cons p rest ih =>
      intro acc hp
      obtain ⟨t, v⟩ := p
      obtain ⟨hhead, htail⟩ := List.pairwise_cons.mp hp
      rw [valueAux]
      by_cases ht : t > time
      · rw [if_pos ht]
        have hfilter : (((t, v) :: rest).filter (fun p => decide (p.1 ≤ time))) = [] := by
          rw [List.filter_eq_nil_iff]
          intro a ha
          rcases List.mem_cons.mp ha with h | h
          · subst h; simpa using not_le.mpr ht
          · have := hhead a h
            simp only [decide_eq_true_eq]
            exact not_le.mpr (lt_of_lt_of_le ht this)
        rw [hfilter]
        rfl
      · rw [if_neg ht]
        have hle : t ≤ time := not_lt.mp ht
        have hfilter : (((t, v) :: rest).filter (fun p => decide (p.1 ≤ time))) =
            (t, v) :: rest.filter (fun p => decide (p.1 ≤ time)) := by
          simp [List.filter_cons, hle]
        rw [hfilter, ih v htail]
        cases hrest : rest.filter (fun p => decide (p.1 ≤ time)) with
        | nil => rfl
        | cons y ys =>
            rw [List.getLast?_cons_cons]
            cases hz : (y :: ys).getLast? with
            | none => simp at hz
            | some z => simp [hz]

/-- Claim C5: for a nonempty, time-ordered Frame, `value(t)` is the level
of the last transition at or before `t`, and 0 when `t` precedes the first
transition. -/
theorem value_is_level_of_last_transition_before (f : SBusFrame) (t : ℚ)
    (hne : f.transitions ≠ [])
    (hsort : List.Pairwise (fun a b : Transition => a.1 ≤ b.1) f.transitions) :
    f.value t =
      (((f.transitions.filter (fun p => decide (p.1 ≤ t))).getLast?).map Prod.snd).getD 0 ∧
    (t < f.start → f.value t = 0) := by
  constructor
  · exact valueAux_eq_filter t f.transitions 0 hsort
  · intro hlt
    rw [SBusFrame.value, valueAux_eq_filter t f.transitions 0 hsort]
    have hfilter : (f.transitions.filter (fun p => decide (p.1 ≤ t))) = [] := by
      rw [List.filter_eq_nil_iff]
      intro a ha
      simp only [decide_eq_true_eq]
      obtain ⟨q, rest, hq⟩ : ∃ q rest, f.transitions = q :: rest := by
        cases hx : f.transitions with
        | nil => exact absurd hx hne
        | cons q rest => exact ⟨q, rest, rfl⟩
      have hstart : f.start = q.1 := by rw [SBusFrame.start, hq]; rfl
      rw [hq] at ha hsort
      rcases List.mem_cons.mp ha with h | h
      · subst h; rw [hstart] at hlt; exact not_le.mpr hlt
      · have hq1 := (List.pairwise_cons.mp hsort).1 a h
        rw [hstart] at hlt
        exact not_le.mpr (lt_of_lt_of_le hlt hq1)
    rw [hfilter]
    rfl

/-- Witness for C5: the level of `frameLost` sampled at 2.795 ms. -/
theorem value_is_level_of_last_transition_before_witness :
    frameLost.value 2.795 =
      (((frameLost.transitions.filter (fun p => decide (p.1 ≤ 2.795))).getLast?).map
        Prod.snd).getD 0 :=
  (value_is_level_of_last_transition_before frameLost 2.795 (by simp [frameLost])
    (by norm_num [frameLost, List.pairwise_cons])).1

theorem getD_zero_eq_headD (l : List String) : l.getD 0 "" = l.headD "" := by
  cases l <;> rfl

theorem exportRows_length (values : List String) (lines : List String) (cols : ℕ) :
    ∀ i, (exportRows values i lines cols).length = values.length := by
  induction values with
  | nil => intro i; rfl
  | cons v rest ih => intro i; simp [exportRows, ih (i + 1)]

theorem exportRows_getElem (values : List String) (lines : List String) (cols : ℕ) :
    ∀ i j, (exportRows values i lines cols)[j]? =
      values[j]?.map (fun v => append_to_line v (i + j) lines cols) := by
  induction values with
  | nil => intro i j; simp [exportRows]
  | cons v rest ih =>
      intro i j
      cases j with
      | zero => simp [exportRows]
      | succ j =>
          simp only [exportRows, List.getElem?_cons_succ, ih (i + 1) j,
            Nat.succ_add, Nat.add_succ]

theorem exportRows_no_columns (values : List String) :
    ∀ i, exportRows values i [] 0 = values := by
  induction values with
  | nil => intro i; rfl
  | cons v rest ih => intro i; simp [exportRows, append_to_line, ih (i + 1)]

/-- Claim C9: export merge semantics. The program's export writes the
rendered delays; appending onto an existing (nonempty) file merges row 0
as `old row 0 (trimmed) + ";" + title`, merges each later row inside the
existing file as `old row (trimmed) + ";" + value`, pads rows beyond the
existing file with one empty field per existing column, treats a missing
file in append mode as empty (columns = 0), and without the append flag
writes a fresh file of just the title row and the new column. -/
theorem export_merge_semantics :
    (∀ (s : LatencyStatistics) (existing : Option (List String)) (title : String)
        (append : Bool),
      s.export' existing title append =
        exportLines existing append title (s.iter.map (fun x => toString x.2.2.2))) ∧
    (∀ (lines : List String) (title : String) (values : List String), lines ≠ [] →
      (exportLines (some lines) true title values).head? =
        some ((lines.headD "").trim ++ ";" ++ title)) ∧
    (∀ (lines : List String) (title : String) (values : List String) (i : ℕ) (v : String),
      values[i]? = some v → i + 1 < lines.length →
      (exportLines (some lines) true title values)[i + 1]? =
        some ((lines.getD (i + 1) "").trim ++ ";" ++ v)) ∧
    (∀ (lines : List String) (title : String) (values : List String) (i : ℕ) (v : String),
      values[i]? = some v → lines.length ≤ i + 1 →
      (exportLines (some lines) true title values)[i + 1]? =
        some (String.join (List.replicate ((lines.headD "").splitOn ";").length ";") ++ v)) ∧
    (∀ (title : String) (values : List String),
      exportLines none true title values = title :: values) ∧
    (∀ (existing : Option (List String)) (title : String) (values : List String),
      exportLines existing false title values = title :: values) := by
  refine ⟨?_, ?_, ?_, ?_, ?_, ?_⟩
  · intro s existing title append
    rfl
  · intro lines title values hne
    have hcols : ((lines.headD "").splitOn ";").length ≠ 0 :=
      Nat.pos_iff_ne_zero.mp (splitOn_length_pos _)
    have hlen : 0 < lines.length := List.length_pos.mpr hne
    simp only [exportLines, Option.getD_some, Option.isSome_some, and_true, if_true,
      List.head?_cons, ite_true]
    rw [append_to_line, if_neg hcols, if_pos hlen, getD_zero_eq_headD]
  · intro lines title values i v hv hi
    simp only [exportLines, Option.getD_some, Option.isSome_some, and_true, ite_true,
      List.getElem?_cons_succ]
    rw [exportRows_getElem values lines _ 1 i, hv]
    have hcols : ((lines.headD "").splitOn ";").length ≠ 0 :=
      Nat.pos_iff_ne_zero.mp (splitOn_length_pos _)
    have h1i : 1 + i = i + 1 := Nat.add_comm 1 i
    rw [Option.map_some']
    rw [append_to_line, if_neg hcols, h1i, if_pos hi]
  · intro lines title values i v hv hi
    simp only [exportLines, Option.getD_some, Option.isSome_some, and_true, ite_true,
      List.getElem?_cons_succ]
    rw [exportRows_getElem values lines _ 1 i, hv]
    have hcols : ((lines.headD "").splitOn ";").length ≠ 0 :=
      Nat.pos_iff_ne_zero.mp (splitOn_length_pos _)
    have h1i : 1 + i = i + 1 := Nat.add_comm 1 i
    rw [Option.map_some']
    rw [append_to_line, if_neg hcols, h1i, if_neg (by omega)]
  · intro title values
    simp [exportLines, append_to_line, exportRows_no_columns values 1]
  · intro existing title values
    simp [exportLines, append_to_line, exportRows_no_columns values 1]

/-- Witness for C9: appending column "B" with value "5" onto a one-row
file containing "A" merges the title row from the old header. -/
theorem export_merge_semantics_witness :
    (exportLines (some ["A"]) true "B" ["5"]).head? =
      some (((["A"] : List String).headD "").trim ++ ";" ++ "B") ∧
    (exportLines (some ["A"]) true "B" ["5"])[0 + 1]? =
      some (String.join (List.replicate (((["A"] : List String).headD "").splitOn ";").length ";") ++ "5") :=
  ⟨export_merge_semantics.2.1 ["A"] "B" ["5"] (by simp),
   export_merge_semantics.2.2.2.1 ["A"] "B" ["5"] 0 "5" rfl (by simp)⟩

/-- Claim C10: export in append mode rewrites the file from scratch: the
output has exactly `1 + N` rows, `N` the number of correlated tuples, and
any pre-existing row at index `≥ 1 + N` is absent from the result. -/
theorem export_append_discards_tail_rows (s : LatencyStatistics) (lines : List String)
    (title : String) (_hne : lines ≠ []) :
    (s.export' (some lines) title true).length = 1 + s.iter.length ∧
    (∀ i, 1 + s.iter.length ≤ i → (s.export' (some lines) title true)[i]? = none) := by
  have hlen : (s.export' (some lines) title true).length = 1 + s.iter.length := by
    simp only [LatencyStatistics.export', exportLines, List.length_cons,
      exportRows_length, List.length_map]
    omega
  refine ⟨hlen, ?_⟩
  intro i hi
  apply List.getElem?_eq_none
  omega

/-- Witness for C10 on a one-row existing file and an empty correlation. -/
theorem export_append_discards_tail_rows_witness :
    ((LatencyStatistics.mk [] [] 19 172).export' (some ["A"]) "B" true).length =
      1 + (LatencyStatistics.mk [] [] 19 172).iter.length ∧
    ((LatencyStatistics.mk [] [] 19 172).export' (some ["A"]) "B" true)[5]? = none :=
  ⟨(export_append_discards_tail_rows (LatencyStatistics.mk [] [] 19 172) ["A"] "B"
      (by simp)).1,
   (export_append_discards_tail_rows (LatencyStatistics.mk [] [] 19 172) ["A"] "B"
      (by simp)).2 5 (by simp [LatencyStatistics.iter, iterAux])⟩

theorem byte_eq_sum (f : SBusFrame) (i : ℕ) :
    f.byte i = ∑ bit ∈ Finset.range 8,
      (1 - f.value (f.start + 0.12 * (i : ℚ) + 0.015 + 0.010 * (bit : ℚ))) * 2 ^ bit := by
  have h8 : List.range 8 = [0, 1, 2, 3, 4, 5, 6, 7] := by rfl
  rw [SBusFrame.byte, h8]
  simp only [List.foldl]
  rw [show (8 : ℕ) = 7 + 1 by rfl, Finset.sum_range_succ]
  rw [show (7 : ℕ) = 6 + 1 by rfl, Finset.sum_range_succ]
  rw [show (6 : ℕ) = 5 + 1 by rfl, Finset.sum_range_succ]
  rw [show (5 : ℕ) = 4 + 1 by rfl, Finset.sum_range_succ]
  rw [show (4 : ℕ) = 3 + 1 by rfl, Finset.sum_range_succ]
  rw [show (3 : ℕ) = 2 + 1 by rfl, Finset.sum_range_succ]
  rw [show (2 : ℕ) = 1 + 1 by rfl, Finset.sum_range_succ]
  rw [show (1 : ℕ) = 0 + 1 by rfl, Finset.sum_range_succ, Finset.sum_range_zero]
  push_cast
  norm_num
  ring_nf

/-- Claim C4: `byte(i)` decodes by sampling `value` at the 8 fixed bit
offsets `start + 0.12*i + 0.015 + 0.010*bit` ms, least-significant bit
first, each sample contributing `(1 - value) << bit`; and `byte(i)`
depends only on the Frame's transitions, so repeated calls agree. -/
theorem byte_decodes_fixed_offsets_lsb_first (f : SBusFrame) (i : ℕ)
    (_hne : f.transitions ≠ []) :
    f.byte i = (∑ bit ∈ Finset.range 8,
      (1 - f.value (f.start + 0.12 * (i : ℚ) + 0.015 + 0.010 * (bit : ℚ))) * 2 ^ bit) ∧
    (∀ g : SBusFrame, g.transitions = f.transitions → g.byte i = f.byte i) := by
  refine ⟨byte_eq_sum f i, ?_⟩
  intro g hg
  have : g = f := by cases g; cases f; simpa using hg
  rw [this]

/-- Witness for C4 at `frameOk`, byte index 0. -/
theorem byte_decodes_fixed_offsets_lsb_first_witness :
    frameOk.byte 0 = ∑ bit ∈ Finset.range 8,
      (1 - frameOk.value (frameOk.start + 0.12 * ((0 : ℕ) : ℚ) + 0.015 + 0.010 * (bit : ℚ))) *
        2 ^ bit :=
  (byte_decodes_fixed_offsets_lsb_first frameOk 0 (by simp [frameOk])).1

theorem valueAux_binary (time : ℚ) : ∀ (l : List Transition) (acc : ℤ),
    (∀ p ∈ l, p.2 = 0 ∨ p.2 = 1) → (acc = 0 ∨ acc = 1) →
    (valueAux time acc l = 0 ∨ valueAux time acc l = 1) := by
  intro l
  induction l with
  | nil => intro acc _ hacc; exact hacc
  | cons p rest ih =>
      intro acc hbin hacc
      obtain ⟨t, v⟩ := p
      rw [valueAux]
      by_cases ht : t > time
      · rw [if_pos ht]; exact hacc
      · rw [if_neg ht]
        refine ih v ?_ ?_
        · intro q hq; exact hbin q (List.mem_cons_of_mem _ hq)
        · simpa using hbin (t, v) (List.mem_cons_self _ _)

theorem value_binary (f : SBusFrame) (hbin : ∀ p ∈ f.transitions, p.2 = 0 ∨ p.2 = 1)
    (t : ℚ) : f.value t = 0 ∨ f.value t = 1 :=
  valueAux_binary t f.transitions 0 hbin (Or.inl rfl)

theorem byte_bounds (f : SBusFrame) (hbin : ∀ p ∈ f.transitions, p.2 = 0 ∨ p.2 = 1)
    (i : ℕ) : 0 ≤ f.byte i ∧ f.byte i ≤ 255 := by
  rw [byte_eq_sum]
  constructor
  · apply Finset.sum_nonneg
    intro bit _
    rcases value_binary f hbin (f.start + 0.12 * (i : ℚ) + 0.015 + 0.010 * (bit : ℚ)) with h | h <;>
      rw [h] <;> positivity
  · calc
      ∑ bit ∈ Finset.range 8,
          (1 - f.value (f.start + 0.12 * (i : ℚ) + 0.015 + 0.010 * (bit : ℚ))) * 2 ^ bit ≤
          ∑ bit ∈ Finset.range 8, 2 ^ bit := by
        apply Finset.sum_le_sum
        intro bit _
        rcases value_binary f hbin (f.start + 0.12 * (i : ℚ) + 0.015 + 0.010 * (bit : ℚ)) with h | h <;>
          rw [h] <;> simp
      _ = 255 := by
        rw [show (8 : ℕ) = 7 + 1 by rfl, Finset.sum_range_succ]
        rw [show (7 : ℕ) = 6 + 1 by rfl, Finset.sum_range_succ]
        rw [show (6 : ℕ) = 5 + 1 by rfl, Finset.sum_range_succ]
        rw [show (5 : ℕ) = 4 + 1 by rfl, Finset.sum_range_succ]
        rw [show (4 : ℕ) = 3 + 1 by rfl, Finset.sum_range_succ]
        rw [show (3 : ℕ) = 2 + 1 by rfl, Finset.sum_range_succ]
        rw [show (2 : ℕ) = 1 + 1 by rfl, Finset.sum_range_succ]
        rw [show (1 : ℕ) = 0 + 1 by rfl, Finset.sum_range_succ, Finset.sum_range_zero]
        norm_num

theorem int_land_ofNat (m k : ℕ) :
    Int.land (Int.ofNat m) (Int.ofNat k) = Int.ofNat (Nat.land m k) := rfl

set_option maxRecDepth 4096 in
theorem nat_land_four_testBit : ∀ a : ℕ, a < 256 → (Nat.land a 4 ≠ 0 ↔ a.testBit 2) := by
  decide

/-- Claim C6: `is_lost()` is truthy exactly when bit 2 (mask `0x04`) of the
decoded byte 23 is set; a synthetic frame encoding byte 23 = `0x04` is
lost, one encoding byte 23 = `0x00` is not. -/
theorem is_lost_iff_bit2_of_byte23 :
    (∀ f : SBusFrame, (∀ p ∈ f.transitions, p.2 = 0 ∨ p.2 = 1) → f.transitions ≠ [] →
      (f.is_lost ≠ 0 ↔ Nat.testBit (f.byte 23).toNat 2)) ∧
    frameLost.byte 23 = 4 ∧ frameLost.is_lost ≠ 0 ∧
    frameOk.byte 23 = 0 ∧ frameOk.is_lost = 0 := by
  have h4 : frameLost.byte 23 = 4 := by
    norm_num [SBusFrame.byte, SBusFrame.value, SBusFrame.start, frameLost,
      List.range_succ, valueAux]
  have h0 : frameOk.byte 23 = 0 := by
    norm_num [SBusFrame.byte, SBusFrame.value, SBusFrame.start, frameOk,
      List.range_succ, valueAux]
  refine ⟨?_, h4, ?_, h0, ?_⟩
  · intro f hbin _hne
    obtain ⟨hnn, hub⟩ := byte_bounds f hbin 23
    have hofNat : f.byte 23 = Int.ofNat (f.byte 23).toNat := (Int.toNat_of_nonneg hnn).symm
    have hlt : (f.byte 23).toNat < 256 := by omega
    rw [SBusFrame.is_lost, hofNat, show (4 : ℤ) = Int.ofNat 4 by rfl, int_land_ofNat]
    rw [Int.ofNat_eq_natCast, Int.natCast_ne_zero]
    exact nat_land_four_testBit _ hlt
  · rw [SBusFrame.is_lost, h4]; decide
  · rw [SBusFrame.is_lost, h0]; decide

/-- Witness for C6: the general equivalence applied to `frameLost`. -/
theorem is_lost_iff_bit2_of_byte23_witness :
    frameLost.is_lost ≠ 0 ↔ Nat.testBit (frameLost.byte 23).toNat 2 :=
  is_lost_iff_bit2_of_byte23.1 frameLost
    (by
      intro p hp
      simp only [frameLost, List.mem_cons, List.mem_singleton, List.not_mem_nil] at hp
      rcases hp with rfl | rfl | rfl | h
      · norm_num
      · norm_num
      · norm_num
      · exact h.elim)
    (by simp [frameLost])

theorem statsStep_foldl (events : List (ℚ × ℤ × SBusFrame × ℚ)) :
    ∀ (mini maxi : Option (ℚ × ℚ × SBusFrame)) (count : ℕ) (total : ℚ),
      events.foldl statsStep (mini, maxi, count, total) =
        (events.foldl miniStep mini, events.foldl maxiStep maxi,
          count + events.length, total + (events.map (fun x => x.2.2.2)).sum) := by
  induction events with
  | nil => intro mini maxi count total; simp
  | cons e rest ih =>
      intro mini maxi count total
      rw [List.foldl_cons, List.foldl_cons, List.foldl_cons]
      show rest.foldl statsStep (miniStep mini e, maxiStep maxi e, count + 1, total + e.2.2.2) = _
      rw [ih]
      simp only [List.length_cons, List.map_cons, List.sum_cons, Prod.mk.injEq, true_and]
      exact ⟨by omega, by ring⟩

theorem foldl_miniStep_some (l : List (ℚ × ℤ × SBusFrame × ℚ)) :
    ∀ m : ℚ × ℚ × SBusFrame, ∃ m', l.foldl miniStep (some m) = some m' ∧
      (m' = m ∨ ∃ x ∈ l, m' = (x.2.2.2, x.1, x.2.2.1)) ∧
      m'.1 ≤ m.1 ∧ ∀ x ∈ l, m'.1 ≤ x.2.2.2 := by
  induction l with
  | nil => intro m; exact ⟨m, rfl, Or.inl rfl, le_refl _, by simp⟩
  | cons e rest ih =>
      intro m
      rw [List.foldl_cons]
      by_cases h : e.2.2.2 < m.1
      · have hstep : miniStep (some m) e = some (e.2.2.2, e.1, e.2.2.1) := by
          simp [miniStep, h]
        rw [hstep]
        obtain ⟨m', h1, h2, h3, h4⟩ := ih (e.2.2.2, e.1, e.2.2.1)
        refine ⟨m', h1, ?_, le_trans h3 (le_of_lt h), ?_⟩
        · rcases h2 with h2 | ⟨x, hx, hm⟩
          · exact Or.inr ⟨e, List.mem_cons_self _ _, h2⟩
          · exact Or.inr ⟨x, List.mem_cons_of_mem _ hx, hm⟩
        · intro x hx
          rcases List.mem_cons.mp hx with rfl | hx
          · exact h3
          · exact h4 x hx
      · have hstep : miniStep (some m) e = some m := by
          simp [miniStep, h]
        rw [hstep]
        obtain ⟨m', h1, h2, h3, h4⟩ := ih m
        refine ⟨m', h1, ?_, h3, ?_⟩
        · rcases h2 with h2 | ⟨x, hx, hm⟩
          · exact Or.inl h2
          · exact Or.inr ⟨x, List.mem_cons_of_mem _ hx, hm⟩
        · intro x hx
          rcases List.mem_cons.mp hx with rfl | hx
          · exact le_trans h3 (not_lt.mp h)
          · exact h4 x hx

theorem foldl_maxiStep_some (l : List (ℚ × ℤ × SBusFrame × ℚ)) :
    ∀ m : ℚ × ℚ × SBusFrame, ∃ m', l.foldl maxiStep (some m) = some m' ∧
      (m' = m ∨ ∃ x ∈ l, m' = (x.2.2.2, x.1, x.2.2.1)) ∧
      m.1 ≤ m'.1 ∧ ∀ x ∈ l, x.2.2.2 ≤ m'.1 := by
  induction l with
  | nil => intro m; exact ⟨m, rfl, Or.inl rfl, le_refl _, by simp⟩
  | cons e rest ih =>
      intro m
      rw [List.foldl_cons]
      by_cases h : e.2.2.2 > m.1
      · have hstep : maxiStep (some m) e = some (e.2.2.2, e.1, e.2.2.1) := by
          simp [maxiStep, h]
        rw [hstep]
        obtain ⟨m', h1, h2, h3, h4⟩ := ih (e.2.2.2, e.1, e.2.2.1)
        refine ⟨m', h1, ?_, le_trans (le_of_lt h) h3, ?_⟩
        · rcases h2 with h2 | ⟨x, hx, hm⟩
          · exact Or.inr ⟨e, List.mem_cons_self _ _, h2⟩
          · exact Or.inr ⟨x, List.mem_cons_of_mem _ hx, hm⟩
        · intro x hx
          rcases List.mem_cons.mp hx with rfl | hx
          · exact h3
          · exact h4 x hx
      · have hstep : maxiStep (some m) e = some m := by
          simp [maxiStep, h]
        rw [hstep]
        obtain ⟨m', h1, h2, h3, h4⟩ := ih m
        refine ⟨m', h1, ?_, h3, ?_⟩
        · rcases h2 with h2 | ⟨x, hx, hm⟩
          · exact Or.inl h2
          · exact Or.inr ⟨x, List.mem_cons_of_mem _ hx, hm⟩
        · intro x hx
          rcases List.mem_cons.mp hx with rfl | hx
          · exact le_trans (not_lt.mp h) h3
          · exact h4 x hx

theorem summarize_nonempty (events : List (ℚ × ℤ × SBusFrame × ℚ)) (hne : events ≠ []) :
    ∃ r, summarize events = some r ∧ r.count = events.length ∧
      r.average = (events.map (fun x => x.2.2.2)).sum / events.length ∧
      (∃ x ∈ events, r.mini.1 = x.2.2.2 ∧ r.mini.2.1 = x.1) ∧
      (∀ x ∈ events, r.mini.1 ≤ x.2.2.2) ∧
      (∃ x ∈ events, r.maxi.1 = x.2.2.2 ∧ r.maxi.2.1 = x.1) ∧
      (∀ x ∈ events, x.2.2.2 ≤ r.maxi.1) := by
  obtain ⟨e, rest, rfl⟩ : ∃ e rest, events = e :: rest := by
    cases events with
    | nil => exact absurd rfl hne
    | cons e rest => exact ⟨e, rest, rfl⟩
  have hmini0 : miniStep none e = some (e.2.2.2, e.1, e.2.2.1) := rfl
  have hmaxi0 : maxiStep none e = some (e.2.2.2, e.1, e.2.2.1) := rfl
  obtain ⟨m', hm1, hm2, hm3, hm4⟩ := foldl_miniStep_some rest (e.2.2.2, e.1, e.2.2.1)
  obtain ⟨M', hM1, hM2, hM3, hM4⟩ := foldl_maxiStep_some rest (e.2.2.2, e.1, e.2.2.1)
  have hfold : (e :: rest).foldl statsStep (none, none, 0, 0) =
      (some m', some M', (e :: rest).length, ((e :: rest).map (fun x => x.2.2.2)).sum) := by
    rw [statsStep_foldl]
    rw [List.foldl_cons, List.foldl_cons, hmini0, hmaxi0, hm1, hM1]
    simp
  refine ⟨⟨(e :: rest).length, ((e :: rest).map (fun x => x.2.2.2)).sum / (e :: rest).length,
      m', M'⟩, ?_, rfl, by push_cast; ring_nf, ?_, ?_, ?_, ?_⟩
  · rw [summarize, hfold]
    simp
  · rcases hm2 with h | ⟨x, hx, hm⟩
    · exact ⟨e, List.mem_cons_self _ _, by rw [h], by rw [h]⟩
    · exact ⟨x, List.mem_cons_of_mem _ hx, by rw [hm], by rw [hm]⟩
  · intro x hx
    rcases List.mem_cons.mp hx with rfl | hx
    · exact hm3
    · exact hm4 x hx
  · rcases hM2 with h | ⟨x, hx, hm⟩
    · exact ⟨e, List.mem_cons_self _ _, by rw [h], by rw [h]⟩
    · exact ⟨x, List.mem_cons_of_mem _ hx, by rw [hm], by rw [hm]⟩
  · intro x hx
    rcases List.mem_cons.mp hx with rfl | hx
    · exact hM3
    · exact hM4 x hx

/-- Counterexample to C8 as stated: in the scenario with delays
`[3, 5, 4]` ms at trigger times `[1000, 2000, 3000]` ms, the maximum delay
5 ms belongs to the trigger at 2000 ms, so the reported time of the
maximum is 2.0 s, not the claimed 3.0 s. -/
theorem summarize_scenario_max_time_not_three :
    ¬ ((summarize statsEvents).map (fun r => r.maxi.2.1 / 1000) = some 3) := by
  have h : summarize statsEvents =
      some ⟨3, 4, (3, 1000, dummyFrame), (5, 2000, dummyFrame)⟩ := by
    norm_num [summarize, statsEvents, statsStep, miniStep, maxiStep]
  rw [h]
  norm_num

/-- Claim C8 (amended): with zero matched tuples the statistics computation
fails with an uncaught division by zero (modelled as `none`); with at least
one tuple no failure occurs and the report holds the tuple count, the
arithmetic mean of the delays, and the minimum and maximum delay each with
its trigger occurrence time; in the scenario with delays `[3, 5, 4]` at
times `[1000, 2000, 3000]` ms the report shows average 4.0, min 3.0 at
t = 1.0 s and max 5.0 at t = 2.0 s (the delay 5.0 occurs at 2000 ms). -/
theorem summarize_div_by_zero_and_report :
    (∀ s : LatencyStatistics, s.iter = [] → s.printReport = none) ∧
    (∀ events : List (ℚ × ℤ × SBusFrame × ℚ), events ≠ [] →
      ∃ r, summarize events = some r ∧ r.count = events.length ∧
        r.average = (events.map (fun x => x.2.2.2)).sum / events.length ∧
        (∃ x ∈ events, r.mini.1 = x.2.2.2 ∧ r.mini.2.1 = x.1) ∧
        (∀ x ∈ events, r.mini.1 ≤ x.2.2.2) ∧
        (∃ x ∈ events, r.maxi.1 = x.2.2.2 ∧ r.maxi.2.1 = x.1) ∧
        (∀ x ∈ events, x.2.2.2 ≤ r.maxi.1)) ∧
    ((summarize statsEvents).map
        (fun r => (r.count, r.average, r.mini.1, r.mini.2.1 / 1000, r.maxi.1, r.maxi.2.1 / 1000)) =
      some (3, 4, 3, 1, 5, 2)) := by
  refine ⟨?_, summarize_nonempty, ?_⟩
  · intro s h
    rw [LatencyStatistics.printReport, h]
    rfl
  · have h : summarize statsEvents =
        some ⟨3, 4, (3, 1000, dummyFrame), (5, 2000, dummyFrame)⟩ := by
      norm_num [summarize, statsEvents, statsStep, miniStep, maxiStep]
    rw [h]
    norm_num

/-- Witness for C8: a run with no trigger transitions has no matched
tuples and its statistics computation fails. -/
theorem summarize_div_by_zero_and_report_witness :
    (LatencyStatistics.mk [] [] 19 172).printReport = none :=
  summarize_div_by_zero_and_report.1 (LatencyStatistics.mk [] [] 19 172) rfl

theorem buildCandidatesAux_sublist (column : ℕ) :
    ∀ (rows : List (ℚ × List ℤ)) (last : Option ℤ),
      (buildCandidatesAux column last rows).Sublist
        (rows.map (fun r => (r.1 * 1000, r.2.getD column 0))) := by
  intro rows
  induction rows with
  | nil => intro last; simp [buildCandidatesAux]
  | cons r rest ih =>
      intro last
      obtain ⟨t, cells⟩ := r
      cases last with
      | none =>
          simp only [buildCandidatesAux, List.map_cons]
          exact List.Sublist.cons₂ _ (ih _)
      | some lv =>
          simp only [buildCandidatesAux, List.map_cons]
          by_cases hv : cells.getD column 0 ≠ lv
          · rw [if_pos hv]
            exact List.Sublist.cons₂ _ (ih _)
          · rw [if_neg hv]
            exact List.Sublist.cons _ (ih _)

theorem buildCandidatesAux_chain (column : ℕ) :
    ∀ (rows : List (ℚ × List ℤ)) (last : Option ℤ),
      List.Chain' (fun a b : Transition => a.2 ≠ b.2) (buildCandidatesAux column last rows) ∧
      (∀ lv p, last = some lv →
        (buildCandidatesAux column last rows).head? = some p → p.2 ≠ lv) := by
  intro rows
  induction rows with
  | nil =>
      intro last
      exact ⟨List.chain'_nil, by intro lv p _ h; simp [buildCandidatesAux] at h⟩
  | cons r rest ih =>
      intro last
      obtain ⟨t, cells⟩ := r
      cases last with
      | none =>
          simp only [buildCandidatesAux]
          refine ⟨?_, ?_⟩
          · rw [List.chain'_cons']
            refine ⟨?_, (ih (some (cells.getD column 0))).1⟩
            intro y hy
            exact Ne.symm ((ih (some (cells.getD column 0))).2 _ y rfl hy)
          · intro lv p hlast _
            exact absurd hlast (by simp)
      | some lv =>
          simp only [buildCandidatesAux]
          by_cases hv : cells.getD column 0 ≠ lv
          · rw [if_pos hv]
            refine ⟨?_, ?_⟩
            · rw [List.chain'_cons']
              refine ⟨?_, (ih (some (cells.getD column 0))).1⟩
              intro y hy
              exact Ne.symm ((ih (some (cells.getD column 0))).2 _ y rfl hy)
            · intro lv' p hlast hp
              obtain rfl : lv' = lv := by simpa using hlast.symm
              obtain rfl : p = (t * 1000, cells.getD column 0) := by simpa using hp.symm
              exact hv
          · rw [if_neg hv]
            refine ⟨(ih (some lv)).1, ?_⟩
            intro lv' p hlast hp
            exact (ih (some lv)).2 lv' p hlast hp

theorem debounce_sublist : ∀ l : List Transition, (debounce l).Sublist l
  | [] => by simp [debounce]
  | [x] => by simp [debounce]
  | x :: y :: rest => by
      simp only [debounce]
      by_cases h : y.1 - x.1 < 0.002
      · rw [if_pos h]
        exact List.Sublist.cons x (List.Sublist.cons y (debounce_sublist rest))
      · rw [if_neg h]
        exact List.Sublist.cons₂ x (debounce_sublist (y :: rest))

theorem binary_two_valued (a b c : ℤ) (ha : a = 0 ∨ a = 1) (hb : b = 0 ∨ b = 1)
    (hc : c = 0 ∨ c = 1) (hab : a ≠ b) (hbc : b ≠ c) : a = c := by
  rcases ha with rfl | rfl <;> rcases hb with rfl | rfl <;> rcases hc with rfl | rfl <;>
    first | rfl | exact absurd rfl hab | exact absurd rfl hbc

theorem debounce_chain_binary : ∀ l : List Transition,
    (∀ p ∈ l, p.2 = 0 ∨ p.2 = 1) →
    List.Chain' (fun a b : Transition => a.2 ≠ b.2) l →
    List.Chain' (fun a b : Transition => a.2 ≠ b.2) (debounce l) ∧
    (∀ a ∈ (debounce l).head?, ∀ b ∈ l.head?, a.2 = b.2)
  | [] => by intro _ _; simp [debounce]
  | [x] => by intro _ _; simp [debounce]
  | x :: y :: rest => by
      intro hbin hchain
      have hxy : x.2 ≠ y.2 := (List.chain'_cons.mp hchain).1
      have hchain' : List.Chain' (fun a b : Transition => a.2 ≠ b.2) (y :: rest) :=
        (List.chain'_cons.mp hchain).2
      have hbin' : ∀ p ∈ y :: rest, p.2 = 0 ∨ p.2 = 1 :=
        fun p hp => hbin p (List.mem_cons_of_mem _ hp)
      simp only [debounce]
      by_cases h : y.1 - x.1 < 0.002
      · rw [if_pos h]
        have hbinr : ∀ p ∈ rest, p.2 = 0 ∨ p.2 = 1 :=
          fun p hp => hbin' p (List.mem_cons_of_mem _ hp)
        have hchainr : List.Chain' (fun a b : Transition => a.2 ≠ b.2) rest :=
          hchain'.tail
        obtain ⟨hc, hh⟩ := debounce_chain_binary rest hbinr hchainr
        refine ⟨hc, ?_⟩
        intro a ha b hb
        have hbx : x = b := by simpa using hb
        subst hbx
        cases hrest : rest with
        | nil =>
            rw [hrest] at ha
            simp [debounce] at ha
        | cons z rest' =>
            have hz : a.2 = z.2 := by
              have := hh a ha
              rw [hrest] at this
              exact this z rfl
            have hyz : y.2 ≠ z.2 := by
              rw [hrest] at hchain'
              exact (List.chain'_cons.mp hchain').1
            have hxz : x.2 = z.2 := by
              refine binary_two_valued x.2 y.2 z.2 (hbin x (List.mem_cons_self _ _))
                (hbin y (List.mem_cons_of_mem _ (List.mem_cons_self _ _))) ?_ hxy hyz
              exact hbinr z (by rw [hrest]; exact List.mem_cons_self _ _)
            rw [hz, hxz]
      · rw [if_neg h]
        obtain ⟨hc, hh⟩ := debounce_chain_binary (y :: rest) hbin' hchain'
        refine ⟨?_, ?_⟩
        · rw [List.chain'_cons']
          refine ⟨?_, hc⟩
          intro a ha
          have hay : a.2 = y.2 := hh a ha y rfl
          rw [hay]
          exact hxy
        · intro a ha b hb
          have hbx : x = b := by simpa using hb
          subst hbx
          have hax : x = a := by simpa using ha
          rw [← hax]

theorem debounce_pair_drop : ∀ l : List Transition,
    List.Pairwise (fun a b : Transition => a.1 < b.1) l →
    ∀ i (x y : Transition), l[i]? = some x → l[i+1]? = some y → y.1 - x.1 < 0.002 →
      x ∉ debounce l ∨ y ∉ debounce l
  | [] => by intro _ i x y hx _ _; simp at hx
  | [z] => by intro _ i x y _ hy _; rcases i with _ | i <;> simp at hy
  | a :: b :: rest => by
      intro hp i x y hx hy hgap
      have hpb : List.Pairwise (fun a b : Transition => a.1 < b.1) (b :: rest) :=
        List.Pairwise.of_cons hp
      have hafirst : ∀ q ∈ b :: rest, a.1 < q.1 := (List.pairwise_cons.mp hp).1
      by_cases h : b.1 - a.1 < 0.002
      · have hdb : debounce (a :: b :: rest) = debounce rest := by
          simp only [debounce]; rw [if_pos h]
        rw [hdb]
        match i, hx, hy with
        | 0, hx, hy =>
            left
            obtain rfl : a = x := by simpa using hx
            intro hmem
            have hrest : a ∈ rest := (debounce_sublist rest).subset hmem
            exact lt_irrefl a.1 (hafirst a (List.mem_cons_of_mem _ hrest))
        | 1, hx, hy =>
            left
            obtain rfl : b = x := by simpa using hx
            intro hmem
            have hrest : b ∈ rest := (debounce_sublist rest).subset hmem
            exact lt_irrefl b.1 ((List.pairwise_cons.mp hpb).1 b hrest)
        | (i + 2), hx, hy =>
            have hx' : rest[i]? = some x := by simpa using hx
            have hy' : rest[i+1]? = some y := by simpa using hy
            exact debounce_pair_drop rest (List.Pairwise.of_cons hpb) i x y hx' hy' hgap
      · have hdb : debounce (a :: b :: rest) = a :: debounce (b :: rest) := by
          simp only [debounce]; rw [if_neg h]
        rw [hdb]
        match i, hx, hy with
        | 0, hx, hy =>
            obtain rfl : a = x := by simpa using hx
            obtain rfl : b = y := by simpa using hy
            exact absurd hgap h
        | (i + 1), hx, hy =>
            have hx' : (b :: rest)[i]? = some x := by simpa using hx
            have hy' : (b :: rest)[i+1]? = some y := by simpa using hy
            have hxmem : x ∈ b :: rest := List.getElem?_mem hx'
            have hymem : y ∈ b :: rest := List.getElem?_mem hy'
            have hxa : x ≠ a := fun heq => lt_irrefl a.1 (by
              have := hafirst x hxmem
              rw [heq] at this
              exact this)
            have hya : y ≠ a := fun heq => lt_irrefl a.1 (by
              have := hafirst y hymem
              rw [heq] at this
              exact this)
            rcases debounce_pair_drop (b :: rest) hpb i x y hx' hy' hgap with hres | hres
            · left
              intro hmem
              rcases List.mem_cons.mp hmem with heq | hmem'
              · exact hxa heq
              · exact hres hmem'
            · right
              intro hmem
              rcases List.mem_cons.mp hmem with heq | hmem'
              · exact hya heq
              · exact hres hmem'

/-- Claim C3: for well-formed captures (binary levels, strictly
time-ordered rows) the debounced output has no two adjacent entries with
the same level, and no two originally adjacent candidates closer together
than 0.002 ms both survive debouncing. -/
theorem debounced_alternates_and_close_pairs_never_survive
    (rows : List (ℚ × List ℤ)) (column : ℕ)
    (hbin : ∀ r ∈ rows.drop 1, r.2.getD column 0 = 0 ∨ r.2.getD column 0 = 1)
    (hsort : List.Pairwise (fun a b : ℚ × List ℤ => a.1 < b.1) (rows.drop 1)) :
    List.Chain' (fun a b : Transition => a.2 ≠ b.2) (build_transitions_array rows column) ∧
    (∀ i (x y : Transition),
      (buildCandidatesAux column none (rows.drop 1))[i]? = some x →
      (buildCandidatesAux column none (rows.drop 1))[i+1]? = some y →
      y.1 - x.1 < 0.002 →
      ¬ (x ∈ build_transitions_array rows column ∧ y ∈ build_transitions_array rows column)) := by
  have hcand_bin : ∀ p ∈ buildCandidatesAux column none (rows.drop 1), p.2 = 0 ∨ p.2 = 1 := by
    intro p hp
    have hmap := (buildCandidatesAux_sublist column (rows.drop 1) none).subset hp
    obtain ⟨r, hr, hrp⟩ := List.mem_map.mp hmap
    rw [← hrp]
    exact hbin r hr
  have hcand_chain := (buildCandidatesAux_chain column (rows.drop 1) none).1
  have hcand_sorted :
      List.Pairwise (fun a b : Transition => a.1 < b.1)
        (buildCandidatesAux column none (rows.drop 1)) := by
    refine List.Pairwise.sublist (buildCandidatesAux_sublist column (rows.drop 1) none) ?_
    rw [List.pairwise_map]
    refine hsort.imp ?_
    intro a b hab
    have : a.1 * 1000 < b.1 * 1000 := by
      exact mul_lt_mul_of_pos_right hab (by norm_num)
    simpa using this
  constructor
  · exact (debounce_chain_binary _ hcand_bin hcand_chain).1
  · intro i x y hx hy hgap hboth
    rcases debounce_pair_drop _ hcand_sorted i x y hx hy hgap with hres | hres
    · exact hres hboth.1
    · exact hres hboth.2

/-- Witness for C3 on a small concrete capture. -/
theorem debounced_alternates_and_close_pairs_never_survive_witness :
    List.Chain' (fun a b : Transition => a.2 ≠ b.2)
      (build_transitions_array [(0, [0]), (1, [0]), (2, [1]), (3, [1]), (4, [0])] 0) :=
  (debounced_alternates_and_close_pairs_never_survive
    [(0, [0]), (1, [0]), (2, [1]), (3, [1]), (4, [0])] 0
    (by
      intro r hr
      simp only [List.drop, List.mem_cons, List.not_mem_nil, or_false] at hr
      rcases hr with rfl | rfl | rfl | rfl <;> norm_num)
    (by norm_num [List.pairwise_cons])).1

theorem step_none_nogap (res : List SBusFrame) (last : ℚ) (x : Transition)
    (h : ¬ x.1 - last > 2) :
    get_frames_step ⟨res, none, last⟩ x = ⟨res, none, x.1⟩ := by
  simp [get_frames_step, h]

theorem step_none_gap (res : List SBusFrame) (last : ℚ) (x : Transition)
    (h : x.1 - last > 2) :
    get_frames_step ⟨res, none, last⟩ x = ⟨res, some ⟨[x]⟩, x.1⟩ := by
  simp [get_frames_step, h]

theorem step_some_nogap (res : List SBusFrame) (f : SBusFrame) (last : ℚ) (x : Transition)
    (h : ¬ x.1 - last > 2) :
    get_frames_step ⟨res, some f, last⟩ x = ⟨res, some ⟨f.transitions ++ [x]⟩, x.1⟩ := by
  simp [get_frames_step, h]

theorem step_some_gap (res : List SBusFrame) (f : SBusFrame) (last : ℚ) (x : Transition)
    (h : x.1 - last > 2) :
    get_frames_step ⟨res, some f, last⟩ x = ⟨res ++ [f], some ⟨[x]⟩, x.1⟩ := by
  simp [get_frames_step, h]

theorem framesJoin_foldl : ∀ (ts : List Transition) (st : GetFramesState),
    framesJoin (ts.foldl get_frames_step st) =
      framesJoin st ++ (match st.current with
        | none => dropUntilGap st.last ts
        | some _ => ts) := by
  intro ts
  induction ts with
  | nil =>
      intro st
      cases hc : st.current <;> simp [dropUntilGap, hc]
  | cons x ts ih =>
      intro st
      obtain ⟨res, cur, last⟩ := st
      rw [List.foldl_cons]
      cases cur with
      | none =>
          by_cases h : x.1 - last > 2
          · rw [step_none_gap res last x h, ih]
            simp [framesJoin, dropUntilGap, h]
          · rw [step_none_nogap res last x h, ih]
            simp [framesJoin, dropUntilGap, h]
      | some f =>
          by_cases h : x.1 - last > 2
          · rw [step_some_gap res f last x h, ih]
            simp [framesJoin]
          · rw [step_some_nogap res f last x h, ih]
            simp [framesJoin]

theorem start_append (f : SBusFrame) (x : Transition) (h : f.transitions ≠ []) :
    SBusFrame.start ⟨f.transitions ++ [x]⟩ = f.start := by
  rw [SBusFrame.start, SBusFrame.start]
  cases ht : f.transitions with
  | nil => exact absurd ht h
  | cons p rest => simp

theorem end'_concat (l : List Transition) (x : Transition) :
    SBusFrame.end' ⟨l ++ [x]⟩ = x.1 := by
  rw [SBusFrame.end']
  simp

theorem end'_eq_getLast (f : SBusFrame) (p : Transition)
    (h : f.transitions.getLast? = some p) : f.end' = p.1 := by
  rw [SBusFrame.end', List.getLastD_eq_getLast?, h]
  rfl

theorem framesInv_step (st : GetFramesState) (x : Transition) (hinv : FramesInv st) :
    FramesInv (get_frames_step st x) := by
  obtain ⟨res, cur, last⟩ := st
  obtain ⟨h1, h2, h3, h4, h5⟩ := hinv
  cases cur with
  | none =>
      have hres : res = [] := h1 rfl
      subst hres
      by_cases h : x.1 - last > 2
      · rw [step_none_gap [] last x h]
        refine ⟨by simp, ?_, ?_, ?_, ?_⟩
        · intro f hf
          simp only [allFrames, List.nil_append, List.mem_singleton] at hf
          subst hf
          simp
        · intro f hf
          simp only [allFrames, List.nil_append, List.mem_singleton] at hf
          subst hf
          simp
        · simp [allFrames]
        · intro f hf
          obtain rfl : (⟨[x]⟩ : SBusFrame) = f := by simpa using hf
          simp [SBusFrame.end']
      · rw [step_none_nogap [] last x h]
        refine ⟨fun _ => rfl, ?_, ?_, ?_, ?_⟩
        · intro f hf; simp [allFrames] at hf
        · intro f hf; simp [allFrames] at hf
        · simp [allFrames]
        · intro f hf; simp at hf
  | some f =>
      have hfmem : f ∈ allFrames ⟨res, some f, last⟩ := by simp [allFrames]
      have hfne : f.transitions ≠ [] := h2 f hfmem
      have hfend : f.end' = last := h5 f rfl
      have hall : allFrames ⟨res, some f, last⟩ = res ++ [f] := by simp [allFrames]
      rw [hall] at h2 h3 h4
      by_cases h : x.1 - last > 2
      · rw [step_some_gap res f last x h]
        have hall' : allFrames ⟨res ++ [f], some ⟨[x]⟩, x.1⟩ = (res ++ [f]) ++ [⟨[x]⟩] := by
          simp [allFrames]
        refine ⟨by simp, ?_, ?_, ?_, ?_⟩
        · intro g hg
          rw [hall'] at hg
          rcases List.mem_append.mp hg with hg | hg
          · exact h2 g hg
          · obtain rfl : g = ⟨[x]⟩ := by simpa using hg
            simp
        · intro g hg
          rw [hall'] at hg
          rcases List.mem_append.mp hg with hg | hg
          · exact h3 g hg
          · obtain rfl : g = ⟨[x]⟩ := by simpa using hg
            simp
        · rw [hall', List.chain'_append]
          refine ⟨h4, by simp, ?_⟩
          intro a ha b hb
          rw [List.getLast?_concat] at ha
          obtain rfl : f = a := by simpa using ha
          obtain rfl : (⟨[x]⟩ : SBusFrame) = b := by simpa using hb
          rw [hfend]
          simpa [SBusFrame.start] using h
        · intro g hg
          obtain rfl : (⟨[x]⟩ : SBusFrame) = g := by simpa using hg
          simp [SBusFrame.end']
      · rw [step_some_nogap res f last x h]
        have hall' : allFrames ⟨res, some ⟨f.transitions ++ [x]⟩, x.1⟩ =
            res ++ [⟨f.transitions ++ [x]⟩] := by
          simp [allFrames]
        refine ⟨by simp, ?_, ?_, ?_, ?_⟩
        · intro g hg
          rw [hall'] at hg
          rcases List.mem_append.mp hg with hg | hg
          · exact h2 g (List.mem_append_left _ hg)
          · obtain rfl : g = ⟨f.transitions ++ [x]⟩ := by simpa using hg
            simp
        · intro g hg
          rw [hall'] at hg
          rcases List.mem_append.mp hg with hg | hg
          · exact h3 g (List.mem_append_left _ hg)
          · obtain rfl : g = ⟨f.transitions ++ [x]⟩ := by simpa using hg
            have hcf : List.Chain' (fun a b : Transition => b.1 - a.1 ≤ 2) f.transitions :=
              h3 f (by simp)
            rw [List.chain'_append]
            refine ⟨hcf, by simp, ?_⟩
            intro a ha b hb
            obtain rfl : x = b := by simpa using hb
            have hae : f.end' = a.1 := end'_eq_getLast f a ha
            rw [← hae, hfend]
            linarith [not_lt.mp (by simpa using h)]
        · rw [hall', List.chain'_append]
          rw [List.chain'_append] at h4
          obtain ⟨hc1, _, hc3⟩ := h4
          refine ⟨hc1, by simp, ?_⟩
          intro a ha b hb
          obtain rfl : (⟨f.transitions ++ [x]⟩ : SBusFrame) = b := by simpa using hb
          have hb' := hc3 a ha f (by simp)
          rw [start_append f x hfne]
          exact hb'
        · intro g hg
          obtain rfl : (⟨f.transitions ++ [x]⟩ : SBusFrame) = g := by simpa using hg
          exact end'_concat f.transitions x

theorem framesInv_foldl : ∀ (ts : List Transition) (st : GetFramesState),
    FramesInv st → FramesInv (ts.foldl get_frames_step st) := by
  intro ts
  induction ts with
  | nil => intro st h; exact h
  | cons x ts ih =>
      intro st h
      rw [List.foldl_cons]
      exact ih _ (framesInv_step st x h)

theorem framesInv_init : FramesInv ⟨[], none, 0⟩ := by
  refine ⟨fun _ => rfl, ?_, ?_, ?_, ?_⟩
  · intro f hf; simp [allFrames] at hf
  · intro f hf; simp [allFrames] at hf
  · simp [allFrames]
  · intro f hf; simp at hf

theorem allFrames_framesState (ts : List Transition) :
    allFrames (framesState ts) = get_frames ts ++ tailFrames ts := rfl

theorem framesJoin_eq_flatten (st : GetFramesState) :
    framesJoin st = ((allFrames st).map SBusFrame.transitions).flatten := by
  cases hc : st.current <;> simp [framesJoin, allFrames, hc]

/-- Counterexample to C1 as stated: for the debounced list `[(3, 1)]` the
loop opens a frame (gap 3 ms from the initial reference 0) but never
appends it to `result`, so `get_frames` emits no frame at all and the
concatenation of the emitted frames' transitions is `[]`, not the original
list. -/
theorem get_frames_drops_trailing_frame :
    ((get_frames [((3 : ℚ), (1 : ℤ))]).map SBusFrame.transitions).flatten ≠
      [((3 : ℚ), (1 : ℤ))] := by
  have h : get_frames [((3 : ℚ), (1 : ℤ))] = [] := by
    norm_num [get_frames, framesState, get_frames_step]
  rw [h]
  simp

/-- Claim C1 (amended): concatenating the transitions of the emitted
Frames *followed by those of the final, never-emitted open Frame*
reproduces the debounced list with its initial pre-gap prefix removed
(transitions encountered before the first gap > 2 ms, measured from the
initial reference time 0, are silently dropped; the group after the last
gap is never emitted). Within this frame sequence every gap > 2 ms starts
a new Frame (no emitted Frame contains a gap > 2 ms), no gap ≤ 2 ms ever
does (consecutive frames are separated by more than 2 ms), and a Frame
with no transitions is never produced. -/
theorem frame_grouping_amended (ts : List Transition) :
    ((get_frames ts ++ tailFrames ts).map SBusFrame.transitions).flatten =
      dropUntilGap 0 ts ∧
    (∀ f ∈ get_frames ts ++ tailFrames ts, f.transitions ≠ []) ∧
    (∀ f ∈ get_frames ts ++ tailFrames ts,
      List.Chain' (fun a b : Transition => b.1 - a.1 ≤ 2) f.transitions) ∧
    List.Chain' (fun f g : SBusFrame => g.start - f.end' > 2)
      (get_frames ts ++ tailFrames ts) := by
  have hinv : FramesInv (framesState ts) :=
    framesInv_foldl ts ⟨[], none, 0⟩ framesInv_init
  have hjoin := framesJoin_foldl ts ⟨[], none, 0⟩
  obtain ⟨_, h2, h3, h4, _⟩ := hinv
  rw [allFrames_framesState] at h2 h3 h4
  refine ⟨?_, h2, h3, h4⟩
  rw [← allFrames_framesState, ← framesJoin_eq_flatten]
  simpa [framesJoin] using hjoin

/-- Witness for C1 on a concrete transition list with two bursts. -/
theorem frame_grouping_amended_witness :
    ((get_frames [((3 : ℚ), (1 : ℤ)), (4, 0), (10, 1), (11, 0)] ++
        tailFrames [((3 : ℚ), (1 : ℤ)), (4, 0), (10, 1), (11, 0)]).map
      SBusFrame.transitions).flatten =
      dropUntilGap 0 [((3 : ℚ), (1 : ℤ)), (4, 0), (10, 1), (11, 0)] ∧
    (⟨[((3 : ℚ), (1 : ℤ)), (4, 0)]⟩ : SBusFrame).transitions ≠ [] :=
  ⟨(frame_grouping_amended [((3 : ℚ), (1 : ℤ)), (4, 0), (10, 1), (11, 0)]).1,
   (frame_grouping_amended [((3 : ℚ), (1 : ℤ)), (4, 0), (10, 1), (11, 0)]).2.1
     ⟨[((3 : ℚ), (1 : ℤ)), (4, 0)]⟩
     (by norm_num [get_frames, tailFrames, framesState, get_frames_step])⟩
